import Mathlib

/-!
# Conformance checks of the performance functional tests

A shallow embedding of the comparison logic in
`functests/performance/cpu_management.go` and
`functests/performance/performance.go`.

Go strings are modelled as lists of characters.  A remote command yields a
`CmdResult`: the bytes it printed together with the Go `error` value
(`none` for `nil`).  A Gomega `Expect` that does not hold aborts the test, so a
test body is modelled as a function to `Bool` (or to `Option` when it computes
a value on the way): `false` / `none` means that an expectation failed.
-/

set_option autoImplicit false

namespace Performance

/-! ## Go standard library functions used by the tests -/

namespace strings

/-- Go `strings.TrimLeft(s, cutset)`: drop the leading characters that occur in `cutset`. -/
def TrimLeft (s cutset : List Char) : List Char :=
  s.dropWhile (fun c => cutset.contains c)

/-- Go `strings.TrimRight(s, cutset)`: drop the trailing characters that occur in `cutset`. -/
def TrimRight (s cutset : List Char) : List Char :=
  (s.reverse.dropWhile (fun c => cutset.contains c)).reverse

/-- Go `strings.Trim(s, cutset)`: drop leading and trailing characters that occur in `cutset`. -/
def Trim (s cutset : List Char) : List Char :=
  TrimRight (TrimLeft s cutset) cutset

/-- Go `unicode.IsSpace`: the white space code points. -/
def isSpace (c : Char) : Bool :=
  let n := c.toNat
  n == 0x09 || n == 0x0A || n == 0x0B || n == 0x0C || n == 0x0D || n == 0x20 ||
  n == 0x85 || n == 0xA0 || n == 0x1680 || (0x2000 ≤ n && n ≤ 0x200A) ||
  n == 0x2028 || n == 0x2029 || n == 0x202F || n == 0x205F || n == 0x3000

/-- Go `strings.TrimSpace(s)`: drop leading and trailing white space. -/
def TrimSpace (s : List Char) : List Char :=
  ((s.dropWhile isSpace).reverse.dropWhile isSpace).reverse

/-- Go `strings.Replace(s, old, new, -1)` for a one-character `old`. -/
def Replace (s : List Char) (old : Char) (new : List Char) : List Char :=
  s.flatMap (fun c => if c = old then new else [c])

/-- Go `strings.Split(s, sep)` for a one-character `sep`: the pieces between
the separators; there is always one piece more than there are separators. -/
def Split (sep : Char) : List Char → List (List Char)
  | [] => [[]]
  | c :: cs =>
    if c = sep then [] :: Split sep cs
    else
      match Split sep cs with
      | [] => [[c]]
      | p :: ps => (c :: p) :: ps

/-- Tell whether `sub` is an initial segment of `s`. -/
def startsWith : List Char → List Char → Bool
  | _, [] => true
  | [], _ :: _ => false
  | c :: cs, d :: ds => c == d && startsWith cs ds

/-- Go `strings.Contains(s, substr)`. -/
def Contains : List Char → List Char → Bool
  | [], sub => sub.isEmpty
  | c :: cs, sub => startsWith (c :: cs) sub || Contains cs sub

end strings

/-- The result of running a command on a node: what it printed and the Go
`error` (`none` is `nil`). -/
structure CmdResult where
  out : List Char
  err : Option String

/-- The function `execCommandOnWorker` of `cpu_management.go`:
`Expect(err).ToNot(HaveOccurred())` and then `strings.Trim(string(out), "\n")`.
`none` means the expectation failed. -/
def execCommandOnWorker (r : CmdResult) : Option (List Char) :=
  match r.err with
  | some _ => none
  | none => some (strings.Trim r.out ['\n'])

/-! ## CPU management checks -/

/-- The `balanceIsolated` flag set up in `BeforeEach`: `true` unless
`profile.Spec.CPU.BalanceIsolated` is a non-nil pointer. -/
def balanceIsolatedOf (BalanceIsolated : Option Bool) : Bool :=
  match BalanceIsolated with
  | some b => b
  | none => true

/-- The `listCPU` chosen in "Verify CPU usage by stress PODs".  The argument
`parseToSlice` stands for `cpuset.Parse(_).ToSlice()` of the Kubernetes library
(`none` for a parse error) and `lscpu` is the result of the
`lscpu | grep On-line | awk ...` probe, which is issued only in the second
branch. -/
def listCPU (parseToSlice : List Char → Option (List Int)) (lscpu : CmdResult)
    (listIsolatedCPU listReservedCPU : List Int) (balanceIsolated guaranteed : Bool) :
    Option (List Int) :=
  if guaranteed then some listIsolatedCPU
  else if balanceIsolated then
    match execCommandOnWorker lscpu with
    | none => none
    | some s => parseToSlice s
  else some listReservedCPU

/-- The first step of "Verify CPU affinity mask, CPU reservation and CPU
isolation on worker node": `sysIsolatedCpus` is what `execCommandOnWorker`
returned for `cat /sys/devices/system/cpu/isolated`. -/
def checkIsolatedCPU (balanceIsolated : Bool) (sysIsolatedCpus isolatedCPU : List Char) : Bool :=
  if balanceIsolated then sysIsolatedCpus.isEmpty
  else decide (sysIsolatedCpus = isolatedCPU)

/-- Go `int64` arithmetic: the representative of `x` modulo `2 ^ 64` in
`[-2 ^ 63, 2 ^ 63)`. -/
def wrapInt64 (x : Int) : Int :=
  (x + 2 ^ 63) % 2 ^ 64 - 2 ^ 63

/-- A CPU quantity of the node status, as the Kubernetes library holds it: an
`int64` value with a number of decimal places, `8` being the value 8 with no
decimal place and `7500m` the value 7500 with three. -/
structure Quantity where
  value : Int
  decimals : Nat

/-- The number of CPUs that a quantity stands for. -/
def Quantity.amount (q : Quantity) : ℚ :=
  (q.value : ℚ) / (10 : ℚ) ^ q.decimals

/-- The library method `Quantity.AsInt64()` on such a quantity: the value and
`true` when it has no decimal place, and otherwise `0` and `false`. -/
def Quantity.AsInt64 (q : Quantity) : Int × Bool :=
  if q.decimals = 0 then (q.value, true) else (0, false)

/-- The test "Verify CPU reservation on the node": the two CPU quantities are
read with `AsInt64()`, whose flag is dropped, and then
`Expect(capacityCPU - allocatableCPU).To(Equal(int64(len(listReservedCPU))))`
on `int64` values. -/
def checkCPUReservation (capacity allocatable : Quantity) (listReservedCPU : List Int) : Bool :=
  let capacityCPU := capacity.AsInt64.1
  let allocatableCPU := allocatable.AsInt64.1
  decide (wrapInt64 (capacityCPU - allocatableCPU) = wrapInt64 (listReservedCPU.length : Int))

/-- The last step of "Verify CPU affinity mask, CPU reservation and CPU
isolation on worker node": the output of `taskset -pc $(pgrep rcu_sched)` must
`ContainSubstring` the text `current affinity list: <reservedCPU>`. -/
def checkKernelAffinity (output reservedCPU : List Char) : Bool :=
  strings.Contains output ("current affinity list: ".toList ++ reservedCPU)

namespace strconv

/-- The value of a decimal digit, `none` for any other character. -/
def digitVal (c : Char) : Option Nat :=
  if 48 ≤ c.toNat ∧ c.toNat ≤ 57 then some (c.toNat - 48) else none

/-- Read a run of decimal digits into the accumulator; `none` at the first
character that is not a digit. -/
def parseDigits : List Char → Nat → Option Nat
  | [], acc => some acc
  | c :: cs, acc =>
    match digitVal c with
    | none => none
    | some d => parseDigits cs (acc * 10 + d)

/-- Go `strconv.Atoi(s)` on a 64-bit platform: an optional sign followed by
at least one decimal digit, the value within the range of `int`; `none` is a
non-nil error. -/
def Atoi (s : List Char) : Option Int :=
  match s with
  | [] => none
  | c :: cs =>
    if c = '-' then
      if cs.isEmpty then none
      else
        match parseDigits cs 0 with
        | none => none
        | some n => if n ≤ 2 ^ 63 then some (-(n : Int)) else none
    else
      let ds := if c = '+' then cs else c :: cs
      if ds.isEmpty then none
      else
        match parseDigits ds 0 with
        | none => none
        | some n => if n < 2 ^ 63 then some (n : Int) else none

end strconv

/-- The last step of "Verify CPU usage by stress PODs": `output` is what
`execCommandOnWorker` returned for `ps -o psr $(pgrep -n stress) | tail -1`;
`strconv.Atoi(strings.Trim(output, " "))` must succeed and the CPU must
`BeElementOf(listCPU)`. -/
def checkProcessCPU (output : List Char) (listCPU : List Int) : Bool :=
  match strconv.Atoi (strings.Trim output [' ']) with
  | none => false
  | some cpu => listCPU.contains cpu

/-! ## Pre boot tuning checks -/

/-- One mask comparison of "Should set workqueue CPU mask": the commas are
removed from the `tuned.non_isolcpus` mask and from the space-trimmed observed
mask, and the two are compared after `strings.TrimLeft(_, "0")`. -/
def workqueueMaskMatches (nonIsolcpusMask workqueueMask : List Char) : Bool :=
  let nonIsolcpusMaskNoDelimiters := strings.Replace nonIsolcpusMask ',' []
  let workqueueMaskTrimmed := strings.TrimSpace workqueueMask
  let workqueueMaskTrimmedNoDelimiters := strings.Replace workqueueMaskTrimmed ',' []
  decide (strings.TrimLeft nonIsolcpusMaskNoDelimiters ['0']
    = strings.TrimLeft workqueueMaskTrimmedNoDelimiters ['0'])

/-- The normal form of a mask in the words of the specification: every `,` is
removed and then all leading `0` characters are removed. -/
def normalizeMask (s : List Char) : List Char :=
  (s.filter (fun c => c != ',')).dropWhile (fun c => c == '0')

/-- The body of "Should set workqueue CPU mask" for one node.
`nonIsolcpusFullArgument` is what the regular expression found in
`/proc/cmdline` (empty when nothing matched), `cmdlineErr` the error of that
probe, and the two results are the probes of
`/sys/devices/virtual/workqueue/cpumask` and
`/sys/bus/workqueue/devices/writeback/cpumask`. -/
def shouldSetWorkqueueCPUMask (nonIsolcpusFullArgument : List Char) (cmdlineErr : Option String)
    (workqueueMask workqueueWritebackMask : CmdResult) : Bool :=
  if strings.Contains nonIsolcpusFullArgument "tuned.non_isolcpus=".toList then
    match (strings.Split '=' nonIsolcpusFullArgument).get? 1 with
    | none => false
    | some nonIsolcpusMask =>
      match cmdlineErr, workqueueMask.err with
      | none, none =>
        if workqueueMaskMatches nonIsolcpusMask workqueueMask.out then
          match workqueueWritebackMask.err with
          | none => workqueueMaskMatches nonIsolcpusMask workqueueWritebackMask.out
          | some _ => false
        else false
      | _, _ => false
  else false

/-- The text looked for in the `lsinitrd` listing. -/
def setAffinityMarker : List Char :=
  "\x27/etc/systemd/system.conf /etc/systemd/system.conf.d/setAffinity.conf\x27".toList

/-- How the body of a test ends for one node. -/
inductive Outcome where
  | passed
  | failed
  | outOfRange
deriving DecidableEq

/-- The loop over `imagesPath[:2]` of "Should inject systemd configuration
files into initramfs": `lsinitrd` gives the result of the `lsinitrd` probe for
a path.  The result is `none` when `Expect(err).ToNot(HaveOccurred())` failed
and otherwise the final value of `found`. -/
def findMarker (lsinitrd : List Char → CmdResult) : List (List Char) → Option Bool
  | [] => some false
  | imagePath :: rest =>
    let initrd := lsinitrd (strings.TrimSpace imagePath)
    match initrd.err with
    | some _ => none
    | none =>
      if strings.Contains initrd.out setAffinityMarker then some true
      else findMarker lsinitrd rest

/-- The `lsinitrd` results that the loop of `findMarker` obtains, in the order
of the probes: the loop stops after a probe with an error and after a listing
with the marker. -/
def inspectedProbes (lsinitrd : List Char → CmdResult) : List (List Char) → List CmdResult
  | [] => []
  | imagePath :: rest =>
    let initrd := lsinitrd (strings.TrimSpace imagePath)
    match initrd.err with
    | some _ => [initrd]
    | none =>
      if strings.Contains initrd.out setAffinityMarker then [initrd]
      else initrd :: inspectedProbes lsinitrd rest

/-- The text before the first newline of the `find` output. -/
def firstImagePath (out : List Char) : List Char :=
  out.takeWhile (fun c => c != '\n')

/-- The text between the first and the second newline of the `find` output
(up to the end when there is one newline only). -/
def secondImagePath (out : List Char) : List Char :=
  ((out.dropWhile (fun c => c != '\n')).drop 1).takeWhile (fun c => c != '\n')

/-- An `lsinitrd` probe without error whose listing has the marker. -/
def yieldsMarker (initrd : CmdResult) : Bool :=
  initrd.err.isNone && strings.Contains initrd.out setAffinityMarker

/-- In the words of the claim: the probe returned, without error, a listing
in which the `setAffinity.conf` marker text occurs. -/
def listsMarker (initrd : CmdResult) : Prop :=
  initrd.err = none ∧ ∃ pre suf : List Char, initrd.out = pre ++
    "\x27/etc/systemd/system.conf /etc/systemd/system.conf.d/setAffinity.conf\x27".toList ++ suf

/-- An example of an `lsinitrd` listing with the marker. -/
def listingWithMarker : List Char :=
  ("Arguments: --include " ++
    "\x27/etc/systemd/system.conf /etc/systemd/system.conf.d/setAffinity.conf\x27\n").toList

/-- An example of an `lsinitrd` listing without the marker. -/
def listingWithoutMarker : List Char :=
  "Arguments: --include \x27/etc/systemd/system.conf\x27\n".toList

/-- An example of the `lsinitrd` probes of a node: the probe of `/b/a.img`
ends with an error, any other path has a listing with the marker. -/
def lsinitrdFirstFails (imagePath : List Char) : CmdResult :=
  if imagePath = "/b/a.img".toList then ⟨"lsinitrd: cannot read".toList, some "exit status 1"⟩
  else ⟨listingWithMarker, none⟩

/-- An example of the `lsinitrd` probes of a node: the listing of `/b/a.img`
has no marker, any other path has a listing with the marker. -/
def lsinitrdSecondOnly (imagePath : List Char) : CmdResult :=
  if imagePath = "/b/a.img".toList then ⟨listingWithoutMarker, none⟩
  else ⟨listingWithMarker, none⟩

/-- The body of "Should inject systemd configuration files into initramfs"
for one node.  `strings.Split` returns a slice whose capacity is its length,
so the slice expression `imagesPath[:2]` is in range exactly when there are at
least two pieces. -/
def shouldInjectInitramfs (findImages : CmdResult) (lsinitrd : List Char → CmdResult) : Outcome :=
  match findImages.err with
  | some _ => Outcome.failed
  | none =>
    let imagesPath := strings.Split '\n' findImages.out
    if imagesPath.length < 2 then Outcome.outOfRange
    else
      match findMarker lsinitrd (imagesPath.take 2) with
      | some true => Outcome.passed
      | _ => Outcome.failed

/-! ## Tuned checks -/

/-- The function polled by `Eventually` in `validatTunedActiveProfile`: the
error of the command is stored in a variable and the space-trimmed output is
returned. -/
def activeProfilePoll (cmd : CmdResult) : List Char :=
  strings.TrimSpace cmd.out

/-- One round of `Eventually(...).Should(Equal(activeProfileName))`. -/
def activeProfileMatches (cmd : CmdResult) (activeProfileName : List Char) : Bool :=
  decide (activeProfilePoll cmd = activeProfileName)

/-- `Eventually(poll).Should(match)` over the successive results of the polls
that fit in the timeout: it succeeds at the first result that matches. -/
def eventually {α : Type} (polls : List α) (matches_ : α → Bool) : Bool :=
  polls.any matches_

/-- The check of `validatTunedActiveProfile` for one node, given the results
of the successive `oc rsh` commands. -/
def validatTunedActiveProfile (cmds : List CmdResult) (activeProfileName : List Char) : Bool :=
  eventually cmds (fun cmd => activeProfileMatches cmd activeProfileName)

/-- The field of `corev1.ContainerStatus` that the tests read. -/
structure ContainerStatus where
  Ready : Bool

/-- The fields of `corev1.Pod` that the tests read. -/
structure Pod where
  Name : String
  ContainerStatuses : List ContainerStatus

/-- The loop of `tunedForNode` over the container statuses: `false` at the
first status that is not ready. -/
def allReady : List ContainerStatus → Bool
  | [] => true
  | s :: rest => if s.Ready == false then false else allReady rest

/-- The function polled by `Eventually` in `tunedForNode`: `err` is the error
of `Client.List` and `Items` the pods of the list. -/
def tunedForNodePoll (err : Option String) (Items : List Pod) : Bool :=
  match err with
  | some _ => false
  | none =>
    match Items with
    | [] => false
    | pod :: _ => allReady pod.ContainerStatuses

/-! ## Theorems -/

/-- Claim C1: the CPU list of the stress pod check is the isolated list for a
guaranteed pod whatever `balanceIsolated` is, the parsed output of the lscpu
probe for a non-guaranteed pod with `balanceIsolated`, and the reserved list
for a non-guaranteed pod without `balanceIsolated`. -/
theorem listCPU_three_way (parseToSlice : List Char → Option (List Int)) (lscpu : CmdResult)
    (listIsolatedCPU listReservedCPU : List Int) (BalanceIsolated : Option Bool) :
    listCPU parseToSlice lscpu listIsolatedCPU listReservedCPU
        (balanceIsolatedOf BalanceIsolated) true = some listIsolatedCPU ∧
    listCPU parseToSlice lscpu listIsolatedCPU listReservedCPU true false
        = (execCommandOnWorker lscpu).bind parseToSlice ∧
    listCPU parseToSlice lscpu listIsolatedCPU listReservedCPU false false
        = some listReservedCPU := by
  refine ⟨by simp [listCPU], ?_, by simp [listCPU]⟩
  simp only [listCPU]
  cases execCommandOnWorker lscpu <;> simp

/-- Claim C3: with `balanceIsolated` the isolated CPU check passes exactly when
the observed text is empty, and without it exactly when the observed text is
the isolated CPU expression itself, character for character; the four cases
of `4-7` are as listed, and `4,5,6,7` is not accepted for `4-7`.  Here `s` is
the text that `execCommandOnWorker` returned for the file. -/
theorem checkIsolatedCPU_iff (s i : List Char) :
    (checkIsolatedCPU true s i = true ↔ s = []) ∧
    (checkIsolatedCPU false s i = true ↔ s = i) ∧
    checkIsolatedCPU true [] "4-7".toList = true ∧
    checkIsolatedCPU true "4-7".toList "4-7".toList = false ∧
    checkIsolatedCPU false "4-7".toList "4-7".toList = true ∧
    checkIsolatedCPU false [] "4-7".toList = false ∧
    checkIsolatedCPU false "4,5,6,7".toList "4-7".toList = false := by
  refine ⟨?_, ?_, by decide, by decide, by decide, by decide, by decide⟩
  · cases s <;> simp [checkIsolatedCPU]
  · simp [checkIsolatedCPU]

/-- The wrap-around of `int64` leaves a value of the `int64` range unchanged. -/
theorem wrapInt64_of_range (x : Int) (h₁ : -(2 ^ 63) ≤ x) (h₂ : x < 2 ^ 63) :
    wrapInt64 x = x := by
  unfold wrapInt64
  omega

/-- For quantities without decimal place (non-negative `int64` values) the
reservation check passes exactly when capacity minus allocatable is the number
of reserved CPUs. -/
theorem checkCPUReservation_whole (c a : Int) (R : List Int)
    (hc : 0 ≤ c ∧ c < 2 ^ 63) (ha : 0 ≤ a ∧ a < 2 ^ 63) (hR : (R.length : Int) < 2 ^ 63) :
    checkCPUReservation ⟨c, 0⟩ ⟨a, 0⟩ R = true ↔
      Quantity.amount ⟨c, 0⟩ - Quantity.amount ⟨a, 0⟩ = (R.length : ℚ) := by
  have h₁ : wrapInt64 (c - a) = c - a := wrapInt64_of_range _ (by omega) (by omega)
  have h₂ : wrapInt64 (R.length : Int) = (R.length : Int) :=
    wrapInt64_of_range _ (by omega) hR
  have h₃ : Quantity.amount ⟨c, 0⟩ - Quantity.amount ⟨a, 0⟩ = ((c - a : Int) : ℚ) := by
    simp [Quantity.amount]
  rw [h₃]
  simp only [checkCPUReservation, Quantity.AsInt64, if_true, h₁, h₂, decide_eq_true_eq]
  constructor
  · intro h
    rw [h]
    simp
  · intro h
    exact_mod_cast h

/-- Claim C4, the code at the failing input: with capacity `8`, allocatable
`7500m` and the eight reserved CPUs 0 to 7 the allocatable quantity is read as
0 and the check passes, although capacity minus allocatable is one half and
not eight.  With whole quantities the examples of the claim are as stated:
allocatable `6` with the reserved CPUs 0 and 1 passes and allocatable `7`
fails. -/
theorem checkCPUReservation_fractional_allocatable :
    Quantity.AsInt64 ⟨7500, 3⟩ = (0, false) ∧
    checkCPUReservation ⟨8, 0⟩ ⟨7500, 3⟩ [0, 1, 2, 3, 4, 5, 6, 7] = true ∧
    Quantity.amount ⟨8, 0⟩ - Quantity.amount ⟨7500, 3⟩ = 1 / 2 ∧
    Quantity.amount ⟨8, 0⟩ - Quantity.amount ⟨7500, 3⟩
      ≠ (([0, 1, 2, 3, 4, 5, 6, 7] : List Int).length : ℚ) ∧
    checkCPUReservation ⟨8, 0⟩ ⟨6, 0⟩ [0, 1] = true ∧
    checkCPUReservation ⟨8, 0⟩ ⟨7, 0⟩ [0, 1] = false := by
  refine ⟨by decide, by decide, ?_, ?_, by decide, by decide⟩
  · norm_num [Quantity.amount]
  · norm_num [Quantity.amount]

/-- Claim C6, the code at the failing poll: the error of the command plays no
part in the comparison, so a poll whose command failed while printing the
expected profile name matches and the check succeeds on it. -/
theorem activeProfile_error_ignored :
    (∀ (out name : List Char) (e : String),
      activeProfileMatches ⟨out, some e⟩ name = activeProfileMatches ⟨out, none⟩ name) ∧
    (∀ (out : List Char) (e : String),
      activeProfileMatches ⟨out, some e⟩ (strings.TrimSpace out) = true) ∧
    activeProfileMatches ⟨"openshift-node-performance-ci\n".toList, some "exit status 1"⟩
      "openshift-node-performance-ci".toList = true ∧
    validatTunedActiveProfile
      [⟨"openshift-node-performance-ci\n".toList, some "exit status 1"⟩]
      "openshift-node-performance-ci".toList = true := by
  refine ⟨fun _ _ _ => rfl, ?_, by decide, by decide⟩
  intro out e
  simp [activeProfileMatches, activeProfilePoll]

/-- The loop over the container statuses answers whether all of them are ready. -/
theorem allReady_iff (l : List ContainerStatus) :
    allReady l = true ↔ ∀ s ∈ l, s.Ready = true := by
  induction l with
  | nil => simp [allReady]
  | cons s rest ih =>
    cases h : s.Ready <;> simp [allReady, h, ih]

/-- Claim C10: the poll of `tunedForNode` is true exactly when the list call
succeeded, the list is not empty and all container statuses of its first pod
are ready; an error or an empty list gives `false`, which `Eventually` retries;
the pods after the first play no part, so longer lists are accepted. -/
theorem tunedForNodePoll_iff (err : Option String) (Items : List Pod) :
    (tunedForNodePoll err Items = true ↔
      err = none ∧ ∃ pod rest, Items = pod :: rest ∧ ∀ s ∈ pod.ContainerStatuses, s.Ready = true) ∧
    (∀ e, tunedForNodePoll (some e) Items = false) ∧
    tunedForNodePoll err [] = false ∧
    (∀ (polls : List (Option String × List Pod)) (e : String),
      eventually ((some e, Items) :: polls) (fun r => tunedForNodePoll r.1 r.2)
        = eventually polls (fun r => tunedForNodePoll r.1 r.2)) ∧
    (∀ (polls : List (Option String × List Pod)),
      eventually ((err, []) :: polls) (fun r => tunedForNodePoll r.1 r.2)
        = eventually polls (fun r => tunedForNodePoll r.1 r.2)) ∧
    (∀ pod rest rest', tunedForNodePoll err (pod :: rest) = tunedForNodePoll err (pod :: rest')) ∧
    tunedForNodePoll none
      [⟨"tuned-a", [⟨true⟩, ⟨true⟩]⟩, ⟨"tuned-b", [⟨false⟩]⟩, ⟨"tuned-c", []⟩] = true := by
  have hnil : tunedForNodePoll err [] = false := by
    cases err <;> rfl
  refine ⟨?_, fun _ => rfl, hnil, ?_, ?_, ?_, ?_⟩
  · cases err with
    | some e => simp [tunedForNodePoll]
    | none =>
      cases Items with
      | nil => simp [tunedForNodePoll]
      | cons pod rest => simp [tunedForNodePoll, allReady_iff]
  · intro polls e
    simp [eventually, tunedForNodePoll]
  · intro polls
    simp [eventually, hnil]
  · intro pod rest rest'
    cases err <;> rfl
  · decide

/-! ### Trimming -/

/-- What `dropWhile` removes satisfies the predicate and what it leaves does
not start with a character that satisfies it. -/
theorem dropWhile_decomp (p : Char → Bool) (s : List Char) :
    ∃ pre, s = pre ++ s.dropWhile p ∧ (∀ c ∈ pre, p c = true) ∧
      ∀ c, (s.dropWhile p).head? = some c → p c = false := by
  refine ⟨s.takeWhile p, (List.takeWhile_append_dropWhile p s).symm,
    fun c hc => List.mem_takeWhile_imp hc, ?_⟩
  induction s with
  | nil => simp
  | cons a s ih =>
    intro c
    by_cases h : p a = true
    · simpa [List.dropWhile_cons, h] using ih c
    · simp only [List.dropWhile_cons, h]
      intro hc
      simp at hc
      subst hc
      simpa using h

/-- The same on the right end of the list. -/
theorem dropWhile_reverse_decomp (p : Char → Bool) (s : List Char) :
    ∃ post, s = (s.reverse.dropWhile p).reverse ++ post ∧ (∀ c ∈ post, p c = true) ∧
      ∀ c, (s.reverse.dropWhile p).reverse.getLast? = some c → p c = false := by
  obtain ⟨pre, h₁, h₂, h₃⟩ := dropWhile_decomp p s.reverse
  refine ⟨pre.reverse, ?_, ?_, ?_⟩
  · have := congrArg List.reverse h₁
    simpa using this
  · intro c hc
    exact h₂ c (by simpa using hc)
  · intro c hc
    exact h₃ c (by simpa using hc)

/-- Trimming on both ends: the input is the result between two runs of trimmed
characters, and the result neither starts nor ends with such a character. -/
theorem trim_decomp (p : Char → Bool) (s : List Char) :
    ∃ pre post, s = pre ++ ((s.dropWhile p).reverse.dropWhile p).reverse ++ post ∧
      (∀ c ∈ pre, p c = true) ∧ (∀ c ∈ post, p c = true) ∧
      (∀ c, ((s.dropWhile p).reverse.dropWhile p).reverse.head? = some c → p c = false) ∧
      ∀ c, ((s.dropWhile p).reverse.dropWhile p).reverse.getLast? = some c → p c = false := by
  obtain ⟨pre, h₁, h₂, h₃⟩ := dropWhile_decomp p s
  obtain ⟨post, k₁, k₂, k₃⟩ := dropWhile_reverse_decomp p (s.dropWhile p)
  refine ⟨pre, post, ?_, h₂, k₂, ?_, k₃⟩
  · rw [List.append_assoc, ← k₁]
    exact h₁
  · intro c hc
    apply h₃ c
    rw [k₁]
    cases ht : ((s.dropWhile p).reverse.dropWhile p).reverse with
    | nil => simp [ht] at hc
    | cons a t =>
      rw [ht] at hc
      simpa using hc

/-- Claim C7 as amended: for a probe without error `execCommandOnWorker`
returns the output without its leading and trailing newline characters, so
the result neither starts nor ends with a newline; any other character is
kept.  A probe with an error gives no result. -/
theorem execCommandOnWorker_trims_newlines (out : List Char) :
    (∃ t pre post, execCommandOnWorker ⟨out, none⟩ = some t ∧ out = pre ++ t ++ post ∧
      (∀ c ∈ pre, c = '\n') ∧ (∀ c ∈ post, c = '\n') ∧
      t.head? ≠ some '\n' ∧ t.getLast? ≠ some '\n') ∧
    ∀ e, execCommandOnWorker ⟨out, some e⟩ = none := by
  refine ⟨?_, fun _ => rfl⟩
  obtain ⟨pre, post, h₁, h₂, h₃, h₄, h₅⟩ := trim_decomp (fun c => ['\n'].contains c) out
  refine ⟨_, pre, post, rfl, h₁, ?_, ?_, ?_, ?_⟩
  · intro c hc
    simpa using h₂ c hc
  · intro c hc
    simpa using h₃ c hc
  · intro h
    simpa using h₄ _ h
  · intro h
    simpa using h₅ _ h

/-- Claim C7 fails as stated: the output `3`, space, newline of a probe
without error is returned as `3`, space, which ends in a space; and a tab
before the newline is kept as well. -/
theorem execCommandOnWorker_keeps_trailing_space :
    execCommandOnWorker ⟨"3 \n".toList, none⟩ = some "3 ".toList ∧
    "3 ".toList.getLast? = some ' ' ∧
    execCommandOnWorker ⟨"3\t\n".toList, none⟩ = some "3\t".toList := by
  decide

/-! ### Workqueue masks -/

/-- Replacing every `,` by nothing keeps exactly the other characters. -/
theorem replace_comma_eq_filter (s : List Char) :
    strings.Replace s ',' [] = s.filter (fun c => c != ',') := by
  induction s with
  | nil => rfl
  | cons a s ih =>
    have ih' : List.flatMap s (fun c => if c = ',' then [] else [c])
        = s.filter (fun c => c != ',') := ih
    by_cases h : a = ','
    · simp [strings.Replace, List.flatMap_cons, h, ih']
    · simp [strings.Replace, List.flatMap_cons, h, ih', List.filter_cons]

/-- The code computes the normal form of the specification. -/
theorem trimLeft_replace_eq_normalizeMask (s : List Char) :
    strings.TrimLeft (strings.Replace s ',' []) ['0'] = normalizeMask s := by
  rw [replace_comma_eq_filter]
  unfold strings.TrimLeft normalizeMask
  congr 1
  funext c
  cases h : c == '0' <;> simp [List.contains, List.elem, h]

/-- A text without white space is left as it is by `strings.TrimSpace`. -/
theorem trimSpace_of_no_space (s : List Char) (h : ∀ c ∈ s, strings.isSpace c = false) :
    strings.TrimSpace s = s := by
  have key : ∀ l : List Char, (∀ c ∈ l, strings.isSpace c = false) →
      l.dropWhile strings.isSpace = l := by
    intro l hl
    cases l with
    | nil => rfl
    | cons a l => simp [List.dropWhile_cons, hl a (by simp)]
  unfold strings.TrimSpace
  rw [key s h, key s.reverse (fun c hc => h c (by simpa using hc))]
  simp

/-- The comparison of the code in terms of the normal form. -/
theorem workqueueMaskMatches_eq (e o : List Char) :
    workqueueMaskMatches e o
      = decide (normalizeMask e = normalizeMask (strings.TrimSpace o)) := by
  simp only [workqueueMaskMatches, trimLeft_replace_eq_normalizeMask]

/-- Leading `0` characters do not change the normal form. -/
theorem normalizeMask_zeros (k : Nat) (s : List Char) :
    normalizeMask (List.replicate k '0' ++ s) = normalizeMask s := by
  induction k with
  | zero => simp
  | succ k ih =>
    rw [List.replicate_succ, List.cons_append]
    unfold normalizeMask at ih ⊢
    rw [List.filter_cons_of_pos (by decide), List.dropWhile_cons_of_pos (by decide)]
    exact ih

/-- A `,` put at any position does not change the normal form. -/
theorem normalizeMask_comma (i : Nat) (s : List Char) :
    normalizeMask (s.take i ++ ',' :: s.drop i) = normalizeMask s := by
  unfold normalizeMask
  rw [List.filter_append, List.filter_cons_of_neg (by decide), ← List.filter_append,
    List.take_append_drop]

/-- Claim C2: for an expected mask `e` and an observed mask `o` without white
space the comparison passes exactly when the two are equal once every `,` and
then the leading `0` characters are removed; so it is unchanged when a `0` is
put in front of either mask any number of times or a `,` is put anywhere in
either mask, and `00000003` matches `3` and `0,0,0,3` matches `00003`. -/
theorem workqueueMaskMatches_iff (e o : List Char)
    (ho : ∀ c ∈ o, strings.isSpace c = false) :
    (workqueueMaskMatches e o = true ↔ normalizeMask e = normalizeMask o) ∧
    (∀ k, workqueueMaskMatches (List.replicate k '0' ++ e) o = workqueueMaskMatches e o) ∧
    (∀ k, workqueueMaskMatches e (List.replicate k '0' ++ o) = workqueueMaskMatches e o) ∧
    (∀ i, workqueueMaskMatches (e.take i ++ ',' :: e.drop i) o = workqueueMaskMatches e o) ∧
    (∀ i, workqueueMaskMatches e (o.take i ++ ',' :: o.drop i) = workqueueMaskMatches e o) ∧
    workqueueMaskMatches "00000003".toList "3".toList = true ∧
    workqueueMaskMatches "0,0,0,3".toList "00003".toList = true := by
  have hto : strings.TrimSpace o = o := trimSpace_of_no_space o ho
  refine ⟨?_, ?_, ?_, ?_, ?_, by decide, by decide⟩
  · rw [workqueueMaskMatches_eq, hto]
    simp
  · intro k
    rw [workqueueMaskMatches_eq, workqueueMaskMatches_eq, normalizeMask_zeros]
  · intro k
    have hz : strings.TrimSpace (List.replicate k '0' ++ o) = List.replicate k '0' ++ o := by
      apply trimSpace_of_no_space
      intro c hc
      rcases List.mem_append.mp hc with h | h
      · rw [List.eq_of_mem_replicate h]
        decide
      · exact ho c h
    rw [workqueueMaskMatches_eq, workqueueMaskMatches_eq, hz, hto, normalizeMask_zeros]
  · intro i
    rw [workqueueMaskMatches_eq, workqueueMaskMatches_eq, normalizeMask_comma]
  · intro i
    have hz : strings.TrimSpace (o.take i ++ ',' :: o.drop i) = o.take i ++ ',' :: o.drop i := by
      apply trimSpace_of_no_space
      intro c hc
      rcases List.mem_append.mp hc with h | h
      · exact ho c (List.mem_of_mem_take h)
      · rcases List.mem_cons.mp h with h | h
        · rw [h]
          decide
        · exact ho c (List.mem_of_mem_drop h)
    rw [workqueueMaskMatches_eq, workqueueMaskMatches_eq, hz, hto, normalizeMask_comma]

/-- The comparison at the masks `0,0,0,3` and `00003`. -/
theorem workqueueMaskMatches_iff_witness :
    (∀ c ∈ "00003".toList, strings.isSpace c = false) ∧
    (workqueueMaskMatches "0,0,0,3".toList "00003".toList = true ↔
      normalizeMask "0,0,0,3".toList = normalizeMask "00003".toList) :=
  ⟨by decide, (workqueueMaskMatches_iff "0,0,0,3".toList "00003".toList (by decide)).1⟩

/-! ### The CPU of the stress process -/

/-- Dropping a run of one character in front of a list that does not start
with a character to drop. -/
theorem dropWhile_replicate_append (p : Char → Bool) (x : Char) (hx : p x = true) (k : Nat)
    (l : List Char) (hl : ∀ c, l.head? = some c → p c = false) :
    (List.replicate k x ++ l).dropWhile p = l := by
  induction k with
  | zero =>
    cases l with
    | nil => rfl
    | cons a l => simp [List.dropWhile_cons, hl a rfl]
  | succ k ih =>
    rw [List.replicate_succ, List.cons_append, List.dropWhile_cons_of_pos hx]
    exact ih

/-- Trimming spaces gives back a text that is not empty and has no space in
it, whatever the number of spaces around it. -/
theorem trim_spaces_around (a b : Nat) (ds : List Char) (hds : ∀ c ∈ ds, c ≠ ' ') :
    strings.Trim (List.replicate a ' ' ++ ds ++ List.replicate b ' ') [' '] = ds := by
  have hp : (fun c : Char => [' '].contains c) ' ' = true := by decide
  have hnot : ∀ c ∈ ds, (fun c : Char => [' '].contains c) c = false := by
    intro c hc
    simpa using hds c hc
  have hhead : ∀ l : List Char, (∀ c ∈ l, c ≠ ' ') → ∀ t : List Char,
      ∀ c, (l ++ t).head? = some c → l ≠ [] → (fun c : Char => [' '].contains c) c = false := by
    intro l hl t c hc hne
    cases l with
    | nil => exact absurd rfl hne
    | cons x l =>
      simp at hc
      subst hc
      simpa using hl x (by simp)
  unfold strings.Trim strings.TrimLeft strings.TrimRight
  by_cases hne : ds = []
  · subst hne
    have h₁ : (List.replicate a ' ' ++ [] ++ List.replicate b ' ')
        = List.replicate (a + b) ' ' ++ [] := by
      simp only [List.append_nil, List.replicate_add]
    rw [h₁, dropWhile_replicate_append _ ' ' hp (a + b) [] (by simp)]
    rfl
  · rw [List.append_assoc,
      dropWhile_replicate_append _ ' ' hp a (ds ++ List.replicate b ' ')
        (fun c hc => hhead ds hds _ c hc hne)]
    rw [List.reverse_append, List.reverse_replicate,
      dropWhile_replicate_append _ ' ' hp b ds.reverse
        (fun c hc => by
          have := hhead ds.reverse (fun c hc => hds c (by simpa using hc)) [] c
            (by simpa using hc) (by simpa using hne)
          exact this)]
    simp

/-- The digit character of a number below ten has that number as its value. -/
theorem digitVal_digitChar (k : Nat) (hk : k < 10) :
    strconv.digitVal (Nat.digitChar k) = some k := by
  interval_cases k <;> decide

/-- Reading the digits that `Nat.toDigitsCore` puts in front of `acc`. -/
theorem parseDigits_toDigitsCore (fuel : Nat) :
    ∀ (n : Nat) (acc : List Char), n < fuel →
      strconv.parseDigits (Nat.toDigitsCore 10 fuel n acc) 0 = strconv.parseDigits acc n := by
  induction fuel with
  | zero => intro n acc h; omega
  | succ fuel ih =>
    intro n acc h
    have hd : strconv.digitVal (Nat.digitChar (n % 10)) = some (n % 10) :=
      digitVal_digitChar _ (Nat.mod_lt _ (by decide))
    unfold Nat.toDigitsCore
    by_cases h0 : n / 10 = 0
    · simp only [h0, if_true]
      have hn : 0 * 10 + n % 10 = n := by omega
      rw [strconv.parseDigits, hd]
      simp only
      rw [hn]
    · simp only [h0, if_false]
      rw [ih (n / 10) _ (by omega)]
      have hn : n / 10 * 10 + n % 10 = n := by omega
      rw [strconv.parseDigits, hd]
      simp only
      rw [hn]

/-- Reading the decimal digits of a number gives the number back. -/
theorem parseDigits_toDigits (n : Nat) :
    strconv.parseDigits (Nat.toDigits 10 n) 0 = some n := by
  unfold Nat.toDigits
  rw [parseDigits_toDigitsCore (n + 1) n [] (by omega)]
  rfl

/-- A text that is read as a number consists of digits. -/
theorem digits_of_parseDigits (ds : List Char) :
    ∀ (v n : Nat), strconv.parseDigits ds v = some n →
      ∀ c ∈ ds, ∃ d, strconv.digitVal c = some d := by
  induction ds with
  | nil => intro v n _ c hc; simp at hc
  | cons x ds ih =>
    intro v n h c hc
    unfold strconv.parseDigits at h
    cases hx : strconv.digitVal x with
    | none => simp [hx] at h
    | some d =>
      simp only [hx] at h
      rcases List.mem_cons.mp hc with rfl | hmem
      · exact ⟨d, hx⟩
      · exact ih _ _ h c hmem

/-- The decimal digits of a number are never the empty text. -/
theorem toDigitsCore_ne_nil (fuel : Nat) :
    ∀ (n : Nat) (acc : List Char), (0 < fuel ∨ acc ≠ []) → Nat.toDigitsCore 10 fuel n acc ≠ [] := by
  induction fuel with
  | zero =>
    intro n acc h
    rcases h with h | h
    · omega
    · simpa [Nat.toDigitsCore] using h
  | succ fuel ih =>
    intro n acc _
    unfold Nat.toDigitsCore
    by_cases h0 : n / 10 = 0
    · simp [h0]
    · simp only [h0, if_false]
      exact ih _ _ (Or.inr (by simp))

/-- What `strconv.Atoi` returns for the decimal digits of a number. -/
theorem atoi_toDigits (n : Nat) :
    strconv.Atoi (Nat.toDigits 10 n) = if n < 2 ^ 63 then some (n : Int) else none := by
  have hparse := parseDigits_toDigits n
  have hdig := digits_of_parseDigits _ _ _ hparse
  have hne : Nat.toDigits 10 n ≠ [] := toDigitsCore_ne_nil _ _ _ (Or.inl (by omega))
  cases hds : Nat.toDigits 10 n with
  | nil => exact absurd hds hne
  | cons c cs =>
    rw [hds] at hparse hdig
    obtain ⟨d, hd⟩ := hdig c (by simp)
    have h₁ : c ≠ '-' := by
      rintro rfl
      rw [show strconv.digitVal '-' = none by decide] at hd
      cases hd
    have h₂ : c ≠ '+' := by
      rintro rfl
      rw [show strconv.digitVal '+' = none by decide] at hd
      cases hd
    simp [strconv.Atoi, h₁, h₂, hparse]

/-- Claim C5: for an allowance list `L` (of `int` values) and an output that
is the decimal CPU id `n` with only spaces around it, the process CPU check
passes exactly when `n` is an element of `L`; with `L = [0, 1, 2, 3]` the CPU 2
passes and the CPU 5 fails; and the check passes only for an output that is
read as an integer after the spaces are trimmed. -/
theorem checkProcessCPU_iff (L : List Int) (n a b : Nat) (hL : ∀ x ∈ L, x < 2 ^ 63) :
    (checkProcessCPU (List.replicate a ' ' ++ Nat.toDigits 10 n ++ List.replicate b ' ') L = true
      ↔ (n : Int) ∈ L) ∧
    checkProcessCPU "2".toList [0, 1, 2, 3] = true ∧
    checkProcessCPU "  2".toList [0, 1, 2, 3] = true ∧
    checkProcessCPU "5".toList [0, 1, 2, 3] = false ∧
    (∀ output, checkProcessCPU output L = true ↔
      ∃ cpu, strconv.Atoi (strings.Trim output [' ']) = some cpu ∧ cpu ∈ L) ∧
    checkProcessCPU [] L = false ∧
    checkProcessCPU " 1x".toList L = false := by
  refine ⟨?_, by decide, by decide, by decide, ?_, by rfl, by rfl⟩
  · have hdig := digits_of_parseDigits _ _ _ (parseDigits_toDigits n)
    have hsp : ∀ c ∈ Nat.toDigits 10 n, c ≠ ' ' := by
      intro c hc
      obtain ⟨d, hd⟩ := hdig c hc
      rintro rfl
      rw [show strconv.digitVal ' ' = none by decide] at hd
      cases hd
    unfold checkProcessCPU
    rw [trim_spaces_around a b _ hsp, atoi_toDigits]
    by_cases hn : n < 2 ^ 63
    · rw [if_pos hn]
      simp
    · rw [if_neg hn]
      constructor
      · intro h
        exact absurd h (by simp)
      · intro h
        have := hL _ h
        exact absurd (by exact_mod_cast this) hn
  · intro output
    unfold checkProcessCPU
    cases strconv.Atoi (strings.Trim output [' ']) <;> simp

/-- The process CPU check at the output of two spaces and `2` with the
allowance list 0 to 3. -/
theorem checkProcessCPU_iff_witness :
    (∀ x ∈ ([0, 1, 2, 3] : List Int), x < 2 ^ 63) ∧
    (checkProcessCPU (List.replicate 2 ' ' ++ Nat.toDigits 10 2 ++ List.replicate 0 ' ')
      [0, 1, 2, 3] = true ↔ ((2 : Nat) : Int) ∈ ([0, 1, 2, 3] : List Int)) :=
  ⟨by simp, (checkProcessCPU_iff [0, 1, 2, 3] 2 2 0 (by simp)).1⟩

/-! ### Substrings -/

/-- A text starts with each of its initial segments. -/
theorem startsWith_append (sub suf : List Char) :
    strings.startsWith (sub ++ suf) sub = true := by
  induction sub with
  | nil => cases suf <;> rfl
  | cons c sub ih => simp [strings.startsWith, ih]

/-- A text contains what it starts with. -/
theorem contains_of_startsWith (s sub : List Char) (h : strings.startsWith s sub = true) :
    strings.Contains s sub = true := by
  cases s with
  | nil =>
    cases sub with
    | nil => rfl
    | cons d ds => simp [strings.startsWith] at h
  | cons c cs => simp [strings.Contains, h]

/-- A text contains each of its segments. -/
theorem contains_append (pre sub suf : List Char) :
    strings.Contains (pre ++ sub ++ suf) sub = true := by
  induction pre with
  | nil =>
    rw [List.nil_append]
    exact contains_of_startsWith _ _ (startsWith_append sub suf)
  | cons c pre ih =>
    rw [List.cons_append, List.cons_append, strings.Contains, ih]
    simp

/-- A text starts with `sub` exactly when it is `sub` followed by a text. -/
theorem startsWith_iff (sub : List Char) :
    ∀ s : List Char, strings.startsWith s sub = true ↔ ∃ suf, s = sub ++ suf := by
  induction sub with
  | nil =>
    intro s
    cases s <;> simp [strings.startsWith]
  | cons d ds ih =>
    intro s
    cases s with
    | nil => simp [strings.startsWith]
    | cons c cs =>
      simp only [strings.startsWith, Bool.and_eq_true, beq_iff_eq, ih cs, List.cons_append,
        List.cons.injEq]
      constructor
      · rintro ⟨h, suf, hs⟩
        exact ⟨suf, h, hs⟩
      · rintro ⟨suf, h, hs⟩
        exact ⟨h, suf, hs⟩

/-- A text contains `sub` exactly when `sub` occurs in it between two texts. -/
theorem contains_iff (sub : List Char) :
    ∀ s : List Char, strings.Contains s sub = true ↔ ∃ pre suf, s = pre ++ sub ++ suf := by
  intro s
  constructor
  · induction s with
    | nil =>
      intro h
      cases sub with
      | nil => exact ⟨[], [], rfl⟩
      | cons d ds => simp [strings.Contains] at h
    | cons c cs ih =>
      intro h
      rw [strings.Contains, Bool.or_eq_true] at h
      rcases h with h | h
      · obtain ⟨suf, hs⟩ := (startsWith_iff sub (c :: cs)).mp h
        exact ⟨[], suf, by simpa using hs⟩
      · obtain ⟨pre, suf, hs⟩ := ih h
        exact ⟨c :: pre, suf, by simp [hs]⟩
  · rintro ⟨pre, suf, rfl⟩
    exact contains_append pre sub suf

/-! ### The initramfs images -/

/-- The first piece of a split is the text before the first separator and the
other pieces are the split of what follows that separator. -/
theorem split_eq (sep : Char) (s : List Char) :
    strings.Split sep s = s.takeWhile (fun c => c != sep) ::
      (match s.dropWhile (fun c => c != sep) with
        | [] => []
        | _ :: t => strings.Split sep t) := by
  induction s with
  | nil => rfl
  | cons c cs ih =>
    by_cases h : c = sep
    · subst h
      simp [strings.Split]
    · have hb : (c != sep) = true := by simpa using h
      have ht : (c :: cs).takeWhile (fun c => c != sep)
          = c :: cs.takeWhile (fun c => c != sep) := by
        simp [List.takeWhile_cons, hb]
      have hd : (c :: cs).dropWhile (fun c => c != sep)
          = cs.dropWhile (fun c => c != sep) := by
        simp [List.dropWhile_cons, hb]
      rw [strings.Split, if_neg h, ih, ht, hd]

/-- A split has one piece more than there are separators. -/
theorem split_length (sep : Char) (s : List Char) :
    (strings.Split sep s).length = s.count sep + 1 := by
  induction s with
  | nil => rfl
  | cons c cs ih =>
    by_cases h : c = sep
    · subst h
      simp [strings.Split, ih]
    · have hc : (c == sep) = false := by simpa using h
      rw [strings.Split, if_neg h, List.count_cons, hc]
      cases hs : strings.Split sep cs with
      | nil => rw [hs] at ih; simp at ih
      | cons p ps =>
        rw [hs] at ih
        simpa using ih

/-- A split has at least two pieces exactly when the text has a separator. -/
theorem split_two_le_length_iff (sep : Char) (s : List Char) :
    2 ≤ (strings.Split sep s).length ↔ sep ∈ s := by
  rw [split_length, ← List.count_pos_iff]
  omega

/-- What is left after the text before the first separator starts with it. -/
theorem dropWhile_ne_of_mem (sep : Char) (s : List Char) (h : sep ∈ s) :
    s.dropWhile (fun c => c != sep) = sep :: (s.dropWhile (fun c => c != sep)).drop 1 := by
  induction s with
  | nil => simp at h
  | cons c cs ih =>
    by_cases hc : c = sep
    · subst hc
      simp
    · have hb : (c != sep) = true := by simpa using hc
      have hd : (c :: cs).dropWhile (fun c => c != sep)
          = cs.dropWhile (fun c => c != sep) := by
        simp [List.dropWhile_cons, hb]
      rw [hd]
      rcases List.mem_cons.mp h with h' | h'
      · exact absurd h'.symm hc
      · exact ih h'

/-- The first two pieces of the `find` output with a newline. -/
theorem split_take_two (out : List Char) (h : '\n' ∈ out) :
    (strings.Split '\n' out).take 2 = [firstImagePath out, secondImagePath out] := by
  rw [split_eq, dropWhile_ne_of_mem '\n' out h]
  simp only
  rw [split_eq]
  rfl

/-- The loop finds the marker exactly when one of the probes it made has no
error and a listing with the marker. -/
theorem findMarker_iff (lsinitrd : List Char → CmdResult) (l : List (List Char)) :
    findMarker lsinitrd l = some true ↔
      ∃ r ∈ inspectedProbes lsinitrd l, yieldsMarker r = true := by
  induction l with
  | nil => simp [findMarker, inspectedProbes]
  | cons p rest ih =>
    unfold findMarker inspectedProbes
    cases herr : (lsinitrd (strings.TrimSpace p)).err with
    | some e => simp [yieldsMarker, herr]
    | none =>
      by_cases hm : strings.Contains (lsinitrd (strings.TrimSpace p)).out setAffinityMarker = true
      · simp [yieldsMarker, herr, hm]
      · simp [yieldsMarker, herr, hm, ih]

/-- The loop makes at most one probe for each path. -/
theorem inspectedProbes_length_le (lsinitrd : List Char → CmdResult) (l : List (List Char)) :
    (inspectedProbes lsinitrd l).length ≤ l.length := by
  induction l with
  | nil => simp [inspectedProbes]
  | cons p rest ih =>
    unfold inspectedProbes
    cases herr : (lsinitrd (strings.TrimSpace p)).err with
    | some e => simp [herr]
    | none =>
      by_cases hm : strings.Contains (lsinitrd (strings.TrimSpace p)).out setAffinityMarker = true
      · simp [herr, hm]
      · simpa [herr, hm] using ih

/-- The probes of the loop are probes of the paths it was given. -/
theorem mem_inspectedProbes (lsinitrd : List Char → CmdResult) (l : List (List Char)) :
    ∀ r ∈ inspectedProbes lsinitrd l, ∃ p ∈ l, r = lsinitrd (strings.TrimSpace p) := by
  induction l with
  | nil => simp [inspectedProbes]
  | cons p rest ih =>
    intro r hr
    unfold inspectedProbes at hr
    cases herr : (lsinitrd (strings.TrimSpace p)).err with
    | some e =>
      simp [herr] at hr
      exact ⟨p, by simp, hr⟩
    | none =>
      by_cases hm : strings.Contains (lsinitrd (strings.TrimSpace p)).out setAffinityMarker = true
      · simp [herr, hm] at hr
        exact ⟨p, by simp, hr⟩
      · simp [herr, hm] at hr
        rcases hr with hr | hr
        · exact ⟨p, by simp, hr⟩
        · obtain ⟨q, hq, hrq⟩ := ih r hr
          exact ⟨q, by simp [hq], hrq⟩

/-- The outcome of the initramfs check for a `find` probe without error. -/
theorem shouldInjectInitramfs_eq (out : List Char) (lsinitrd : List Char → CmdResult) :
    shouldInjectInitramfs ⟨out, none⟩ lsinitrd =
      if '\n' ∈ out then
        (if findMarker lsinitrd ((strings.Split '\n' out).take 2) = some true then Outcome.passed
          else Outcome.failed)
      else Outcome.outOfRange := by
  have hlen := split_two_le_length_iff '\n' out
  unfold shouldInjectInitramfs
  by_cases h : '\n' ∈ out
  · have h2 : ¬ (strings.Split '\n' out).length < 2 := by
      have := hlen.mpr h
      omega
    simp only [h2, h, if_true, if_false]
    cases hf : findMarker lsinitrd ((strings.Split '\n' out).take 2) with
    | none => simp
    | some b => cases b <;> simp
  · have h2 : (strings.Split '\n' out).length < 2 := by
      by_contra hc
      exact h (hlen.mp (by omega))
    simp only [h2, h, if_true, if_false]

/-- A probe yields the marker in the sense of the code exactly when it lists
the marker in the words of the claim. -/
theorem yieldsMarker_iff (r : CmdResult) : yieldsMarker r = true ↔ listsMarker r := by
  unfold yieldsMarker listsMarker
  rw [Bool.and_eq_true, Option.isNone_iff_eq_none, contains_iff]
  rfl

/-- The check passes exactly when the first probe lists the marker, or the
first probe has no error and the second probe lists the marker. -/
theorem shouldInjectInitramfs_passed_iff (out : List Char) (lsinitrd : List Char → CmdResult) :
    shouldInjectInitramfs ⟨out, none⟩ lsinitrd = Outcome.passed ↔
      '\n' ∈ out ∧
        (yieldsMarker (lsinitrd (strings.TrimSpace (firstImagePath out))) = true ∨
          ((lsinitrd (strings.TrimSpace (firstImagePath out))).err = none ∧
            yieldsMarker (lsinitrd (strings.TrimSpace (secondImagePath out))) = true)) := by
  have hpass : shouldInjectInitramfs ⟨out, none⟩ lsinitrd = Outcome.passed ↔
      '\n' ∈ out ∧ findMarker lsinitrd ((strings.Split '\n' out).take 2) = some true := by
    rw [shouldInjectInitramfs_eq]
    by_cases h : '\n' ∈ out
    · by_cases hf : findMarker lsinitrd ((strings.Split '\n' out).take 2) = some true
      · simp [h, hf]
      · simp [h, hf]
    · simp [h]
  rw [hpass]
  constructor
  · rintro ⟨h, hf⟩
    refine ⟨h, ?_⟩
    rw [split_take_two out h] at hf
    unfold findMarker at hf
    cases h0 : (lsinitrd (strings.TrimSpace (firstImagePath out))).err with
    | some e => simp [h0] at hf
    | none =>
      by_cases hm : strings.Contains (lsinitrd (strings.TrimSpace (firstImagePath out))).out
          setAffinityMarker = true
      · left
        simp [yieldsMarker, h0, hm]
      · right
        refine ⟨rfl, ?_⟩
        simp only [h0, hm, if_false] at hf
        unfold findMarker at hf
        cases h1 : (lsinitrd (strings.TrimSpace (secondImagePath out))).err with
        | some e => simp [h1] at hf
        | none =>
          by_cases hm1 : strings.Contains
              (lsinitrd (strings.TrimSpace (secondImagePath out))).out setAffinityMarker = true
          · simp [yieldsMarker, h1, hm1]
          · simp [h1, hm1, findMarker] at hf
  · rintro ⟨h, hy⟩
    refine ⟨h, ?_⟩
    rw [split_take_two out h]
    unfold findMarker
    rcases hy with hy | ⟨h0, hy⟩
    · simp only [yieldsMarker, Bool.and_eq_true, Option.isNone_iff_eq_none] at hy
      simp [hy.1, hy.2]
    · simp only [yieldsMarker, Bool.and_eq_true, Option.isNone_iff_eq_none] at hy
      by_cases hm : strings.Contains (lsinitrd (strings.TrimSpace (firstImagePath out))).out
          setAffinityMarker = true
      · simp [h0, hm]
      · simp only [h0, hm, if_false]
        unfold findMarker
        simp [hy.1, hy.2]

/-- Claim C9 as amended: the slice of the first two pieces of the `find`
output is in range exactly when the output has a newline, so the check ends
out of range for an output without newline (one path, or nothing).  Otherwise
the first two pieces are the texts before the first and before the second
newline, the loop probes at most these two, and the check passes exactly when
the probe of the first piece returns without error a listing with the marker,
or the probe of the first piece returns without error and the probe of the
second piece returns without error a listing with the marker.  A first probe
with an error fails the check whatever the second would list. -/
theorem shouldInjectInitramfs_spec (out : List Char) (lsinitrd : List Char → CmdResult) :
    (2 ≤ (strings.Split '\n' out).length ↔ '\n' ∈ out) ∧
    (shouldInjectInitramfs ⟨out, none⟩ lsinitrd = Outcome.outOfRange ↔ '\n' ∉ out) ∧
    shouldInjectInitramfs ⟨"/rootfs/boot/ostree/rhcos-0/initramfs.img".toList, none⟩ lsinitrd
      = Outcome.outOfRange ∧
    shouldInjectInitramfs ⟨[], none⟩ lsinitrd = Outcome.outOfRange ∧
    ((strings.Split '\n' out).take 2 = [firstImagePath out, secondImagePath out] ↔ '\n' ∈ out) ∧
    (inspectedProbes lsinitrd ((strings.Split '\n' out).take 2)).length ≤ 2 ∧
    (∀ r ∈ inspectedProbes lsinitrd ((strings.Split '\n' out).take 2),
      ∃ p ∈ (strings.Split '\n' out).take 2, r = lsinitrd (strings.TrimSpace p)) ∧
    (shouldInjectInitramfs ⟨out, none⟩ lsinitrd = Outcome.passed ↔
      '\n' ∈ out ∧
        (listsMarker (lsinitrd (strings.TrimSpace (firstImagePath out))) ∨
          ((lsinitrd (strings.TrimSpace (firstImagePath out))).err = none ∧
            listsMarker (lsinitrd (strings.TrimSpace (secondImagePath out)))))) ∧
    (shouldInjectInitramfs ⟨out, none⟩ lsinitrd = Outcome.passed ↔
      '\n' ∈ out ∧ ∃ r ∈ inspectedProbes lsinitrd ((strings.Split '\n' out).take 2),
        listsMarker r) ∧
    (∀ e, (lsinitrd (strings.TrimSpace (firstImagePath out))).err = some e →
      shouldInjectInitramfs ⟨out, none⟩ lsinitrd ≠ Outcome.passed) ∧
    shouldInjectInitramfs ⟨"/b/a.img\n/b/b.img\n".toList, none⟩
      (fun _ => ⟨listingWithMarker, none⟩) = Outcome.passed ∧
    shouldInjectInitramfs ⟨"/b/a.img\n/b/b.img\n".toList, none⟩ lsinitrdSecondOnly
      = Outcome.passed ∧
    shouldInjectInitramfs ⟨"/b/a.img\n".toList, none⟩ lsinitrdSecondOnly = Outcome.passed ∧
    shouldInjectInitramfs ⟨"/b/a.img\n/b/b.img\n".toList, none⟩
      (fun _ => ⟨listingWithoutMarker, none⟩) = Outcome.failed ∧
    shouldInjectInitramfs ⟨"/b/a.img\n/b/a.img\n/b/b.img\n".toList, none⟩ lsinitrdSecondOnly
      = Outcome.failed := by
  have hpass := shouldInjectInitramfs_passed_iff out lsinitrd
  refine ⟨split_two_le_length_iff '\n' out, ?_, by rfl, by rfl, ?_, ?_, mem_inspectedProbes _ _,
    ?_, ?_, ?_, by decide, by decide, by decide, by decide, by decide⟩
  · rw [shouldInjectInitramfs_eq]
    by_cases h : '\n' ∈ out
    · by_cases hf : findMarker lsinitrd ((strings.Split '\n' out).take 2) = some true
      · simp [h, hf]
      · simp [h, hf]
    · simp [h]
  · constructor
    · intro h
      have hlen := congrArg List.length h
      rw [List.length_take, split_length] at hlen
      simp only [List.length_cons, List.length_nil] at hlen
      have hc : 0 < out.count '\n' := by omega
      exact List.count_pos_iff.mp hc
    · exact split_take_two out
  · refine le_trans (inspectedProbes_length_le _ _) ?_
    simp
  · rw [hpass, yieldsMarker_iff, yieldsMarker_iff]
  · rw [shouldInjectInitramfs_eq]
    by_cases h : '\n' ∈ out
    · simp only [h, if_true, true_and, ← yieldsMarker_iff, ← findMarker_iff]
      by_cases hf : findMarker lsinitrd ((strings.Split '\n' out).take 2) = some true
      · simp [hf]
      · simp [hf]
    · simp [h]
  · intro e he hp
    rw [hpass] at hp
    rcases hp.2 with hy | ⟨h0, _⟩
    · simp [yieldsMarker, he] at hy
    · rw [he] at h0
      cases h0

/-- Claim C9 fails as stated: with the `find` output `/b/a.img`, newline,
`/b/b.img`, newline, the first two pieces are the two paths and the probe of
the second one returns without error a listing with the marker, yet the check
fails, because the probe of the first one ends with an error. -/
theorem shouldInjectInitramfs_first_probe_error :
    (strings.Split '\n' "/b/a.img\n/b/b.img\n".toList).take 2
      = ["/b/a.img".toList, "/b/b.img".toList] ∧
    (lsinitrdFirstFails (strings.TrimSpace "/b/a.img".toList)).err = some "exit status 1" ∧
    listsMarker (lsinitrdFirstFails (strings.TrimSpace "/b/b.img".toList)) ∧
    shouldInjectInitramfs ⟨"/b/a.img\n/b/b.img\n".toList, none⟩ lsinitrdFirstFails
      = Outcome.failed := by
  refine ⟨by decide, by decide, ?_, by decide⟩
  exact ⟨by decide, "Arguments: --include ".toList, "\n".toList, by decide⟩

/-! ### The kernel argument -/

/-- The piece before a separator that is the first one. -/
theorem split_append_sep (sep : Char) (a b : List Char) (ha : sep ∉ a) :
    strings.Split sep (a ++ sep :: b) = a :: strings.Split sep b := by
  induction a with
  | nil => simp [strings.Split]
  | cons c a ih =>
    have hc : c ≠ sep := fun h => ha (by simp [h])
    have ha' : sep ∉ a := fun h => ha (by simp [h])
    rw [List.cons_append, strings.Split, if_neg hc, ih ha']

/-- A text without separator is the only piece of its split. -/
theorem split_of_not_mem (sep : Char) (s : List Char) (hs : sep ∉ s) :
    strings.Split sep s = [s] := by
  induction s with
  | nil => rfl
  | cons c s ih =>
    have hc : c ≠ sep := fun h => hs (by simp [h])
    have hs' : sep ∉ s := fun h => hs (by simp [h])
    rw [strings.Split, if_neg hc, ih hs']

/-- The body of "Should set workqueue CPU mask" for the kernel argument
`tuned.non_isolcpus=e` and three probes without error: the mask `e` is
compared with both observed masks. -/
theorem shouldSetWorkqueueCPUMask_eq (e o w : List Char) (he : '=' ∉ e) :
    shouldSetWorkqueueCPUMask ("tuned.non_isolcpus=".toList ++ e) none ⟨o, none⟩ ⟨w, none⟩
      = (workqueueMaskMatches e o && workqueueMaskMatches e w) := by
  have hc : strings.Contains ("tuned.non_isolcpus=".toList ++ e) "tuned.non_isolcpus=".toList
      = true := by
    have := contains_append [] "tuned.non_isolcpus=".toList e
    simpa using this
  have hs : strings.Split '=' ("tuned.non_isolcpus=".toList ++ e)
      = ["tuned.non_isolcpus".toList, e] := by
    have h₁ : "tuned.non_isolcpus=".toList ++ e = "tuned.non_isolcpus".toList ++ '=' :: e := rfl
    rw [h₁, split_append_sep '=' _ e (by decide), split_of_not_mem '=' e he]
  unfold shouldSetWorkqueueCPUMask
  rw [if_pos hc, hs]
  cases h : workqueueMaskMatches e o <;> simp [h]

/-- Claim C8, the code at the failing input: the affinity check accepts every
output in which the reserved expression is followed by more text, and so with
the reserved CPUs `0-1` it accepts a taskset output whose affinity list is
`0-15`. -/
theorem checkKernelAffinity_accepts_longer_list :
    (∀ pre r suf : List Char,
      checkKernelAffinity (pre ++ ("current affinity list: ".toList ++ r) ++ suf) r = true) ∧
    checkKernelAffinity "pid 11\x27s current affinity list: 0-15".toList "0-1".toList = true := by
  refine ⟨?_, by decide⟩
  intro pre r suf
  exact contains_append pre _ suf

end Performance
